import Mathlib

/-!
Shallow embedding of `src/network/rpc.rs` of the avail-light repository:
the node failover pool (`Nodes`), the version-compatibility predicate
(`ExpectedVersion.matches`), and the sampling planner
(`generate_random_cells`, `cell_count_for_confidence`).

Conventions used throughout:
* Rust strings are modelled as `List Char`; `str::starts_with` is
  `List.isPrefixOf`.
* Rust machine integers are modelled as `Nat`; where the source's wrap-around
  matters (the `usize` subtraction `self.list.len() - 1` and the `u16` casts
  in the sampling loop) the reduction modulo `2^64` resp. `2^16` is written
  explicitly.
* A Rust function that can panic (out-of-bounds slice indexing) is modelled
  with an outer `Option`: the outer `none` is a panic, `some v` is a normal
  return of `v`.  So for a Rust function returning `Option<Node>`, `none`
  models a panic, `some none` models returning `None`, and `some (some x)`
  models returning `Some(x)`.
* Randomness (`thread_rng`) is modelled by passing the stream of values the
  generator produces as an explicit argument: a `Nat → Position` stream of
  draws for the sampling loop, and the shuffled list for `Nodes::shuffle`.
  Theorems quantify over all admissible streams.
* `f64` arithmetic in `cell_count_for_confidence` is modelled exactly over
  `ℚ`, with `⌈-log₂ x⌉` rendered as the (computable) `Int.clog 2 x⁻¹`.
-/

/-- `usize` wraps modulo `2^64` (release-mode wrapping semantics). -/
def USIZE : Nat := 18446744073709551616

/-- The `u16` modulus: `v as u16` is `v % U16`. -/
def U16 : Nat := 65536

/-- Modelled from the spec: the external coded-matrix collaborator's
`Dimensions` type (crate `kate_recovery`), read-only for this core: column
count and base row count, with the derived extended row count (redundancy
factor 2) and extended total cell count. -/
structure Dimensions where
  rows : Nat
  cols : Nat
  deriving DecidableEq, Repr

/-- Extended (coded) row count: base rows times the extension factor 2. -/
def Dimensions.extended_rows (d : Dimensions) : Nat := 2 * d.rows

/-- Total number of sample-able positions of the extended matrix. -/
def Dimensions.extended_size (d : Dimensions) : Nat :=
  d.extended_rows * d.cols

/-- `kate_recovery::matrix::Position`: a cell address `{ row: u32, col: u16 }`. -/
structure Position where
  row : Nat
  col : Nat
  deriving DecidableEq, Repr

/-- `Node`: identity of a candidate upstream endpoint
(`host`, `system_version`, `spec_version`, `genesis_hash`).  `H256` is
modelled as a `Nat`. -/
structure Node where
  host : List Char
  system_version : List Char
  spec_version : Nat
  genesis_hash : Nat
  deriving DecidableEq, Repr

/-- `Nodes`: the failover pool, a candidate list plus a cursor
(`current_index: usize`). -/
structure Nodes where
  list : List Node
  current_index : Nat
  deriving DecidableEq, Repr

/-- `Nodes::get_current`: `Some(self.list[self.current_index].clone())`.
The slice indexing panics (outer `none`) when the cursor is out of bounds —
in particular on an empty pool; the function never returns Rust `None`. -/
def Nodes.get_current (n : Nodes) : Option (Option Node) :=
  if h : n.current_index < n.list.length then
    some (some (n.list.get ⟨n.current_index, h⟩))
  else
    none

/-- `Nodes::next`: compares the cursor with `self.list.len() - 1` (a `usize`
subtraction, wrapping on an empty list), returning `None` at the last index,
and otherwise incrementing the cursor and delegating to `get_current`.
The returned pair is (result, state after the call); a panic inside
`get_current` is the outer `none` of the first component. -/
def Nodes.next (n : Nodes) : Option (Option Node) × Nodes :=
  if n.current_index = (n.list.length + (USIZE - 1)) % USIZE then
    (some none, n)
  else
    let n' : Nodes := { n with current_index := (n.current_index + 1) % USIZE }
    (n'.get_current, n')

/-- `k+1` successive calls of `Nodes::next`, returning the last call's
result and the final state. -/
def Nodes.nextSteps : Nat → Nodes → Option (Option Node) × Nodes
  | 0, n => Nodes.next n
  | k + 1, n => Nodes.nextSteps k (Nodes.next n).2

/-- `Nodes::shuffle`: `self.list.shuffle(&mut thread_rng())`.  The random
outcome is passed explicitly: `shuffled` is the permuted list produced by the
uniform shuffle. -/
def Nodes.shuffleTo (n : Nodes) (shuffled : List Node) : Nodes :=
  { n with list := shuffled }

/-- `Nodes::reset`: shuffle the list, rewind the cursor to 0, and return
`get_current()` (which panics on an empty pool). -/
def Nodes.reset (n : Nodes) (shuffled : List Node) :
    Option (Option Node) × Nodes :=
  let n1 := n.shuffleTo shuffled
  let n2 : Nodes := { n1 with current_index := 0 }
  (n2.get_current, n2)

/-- `ExpectedVersion`: the comparison baseline `{ version, spec_name }`. -/
structure ExpectedVersion where
  version : List Char
  spec_name : List Char
  deriving DecidableEq, Repr

/-- `ExpectedVersion::matches`:
`node_version.starts_with(self.version) && self.spec_name == spec_name`. -/
def ExpectedVersion.matches (e : ExpectedVersion)
    (node_version spec_name : List Char) : Bool :=
  e.version.isPrefixOf node_version && e.spec_name == spec_name

/-- The sampling loop of `generate_random_cells`:
`while (indices.len() as u16) < count as u16 { indices.insert(position) }`.
`c16` is the already-truncated `count as u16`; `draws n` is the `(row, col)`
pair produced by the `n`-th pair of `rng.gen_range` calls; `fuel` bounds the
number of iterations (the Rust loop has no bound; a run that needs more
iterations than `fuel` is `none`). -/
def genLoop (draws : Nat → Position) (c16 : Nat) :
    Nat → Nat → Finset Position → Option (Finset Position)
  | 0, _, _ => none
  | fuel + 1, i, acc =>
    if acc.card % U16 < c16 then
      genLoop draws c16 fuel (i + 1) (insert (draws i) acc)
    else
      some acc

/-- `generate_random_cells`: caps the requested count at
`dimensions.extended_size()`, then collects random positions until the loop
guard `(indices.len() as u16) < count as u16` fails.  The random stream and
the iteration bound are explicit arguments (see `genLoop`). -/
def generate_random_cells (dimensions : Dimensions) (cell_count : Nat)
    (draws : Nat → Position) (fuel : Nat) : Option (Finset Position) :=
  let max_cells := dimensions.extended_size
  let count := if max_cells < cell_count then max_cells else cell_count
  genLoop draws (count % U16) fuel 0 ∅

/-- The core computation of `cell_count_for_confidence`:
`(-((1f64 - (c / 100f64)).log2())).ceil() as u32`, modelled exactly over `ℚ`:
`⌈-log₂ (1 - c/100)⌉ = Int.clog 2 (1 - c/100)⁻¹`, and the saturating
`as u32` cast of the (possibly negative) ceiling is `Int.toNat`. -/
def cellCountRaw (c : ℚ) : Nat :=
  (Int.clog 2 (1 - c / 100)⁻¹).toNat

/-- `cell_count_for_confidence`: confidence outside `[50, 100)` falls back to
`99`, and a computed count of `0` or above `10` also falls back to the count
for `99`. -/
def cell_count_for_confidence (confidence : ℚ) : Nat :=
  let cell_count : Nat :=
    if ¬ (50 ≤ confidence ∧ confidence < 100) then cellCountRaw 99
    else cellCountRaw confidence
  if cell_count = 0 ∨ cell_count > 10 then cellCountRaw 99
  else cell_count

/-- The concrete baseline `{version: "1.6", spec_name: "avail"}` of the spec's
example. -/
def expected16 : ExpectedVersion :=
  ⟨['1', '.', '6'], ['a', 'v', 'a', 'i', 'l']⟩

/-- `List.isPrefixOf` decides the "starts with" relation: `l₁` is a prefix of
`l₂` exactly when `l₂` is `l₁` followed by some tail. -/
theorem isPrefixOf_eq_true_iff (l₁ l₂ : List Char) :
    l₁.isPrefixOf l₂ = true ↔ ∃ t, l₁ ++ t = l₂ := by
  induction l₁ generalizing l₂ with
  | nil => simp [List.isPrefixOf]
  | cons a l ih =>
    cases l₂ with
    | nil => simp [List.isPrefixOf]
    | cons b m =>
      simp only [List.isPrefixOf, Bool.and_eq_true, beq_iff_eq, ih,
        List.cons_append, List.cons.injEq]
      constructor
      · rintro ⟨rfl, t, rfl⟩
        exact ⟨t, rfl, rfl⟩
      · rintro ⟨t, rfl, rfl⟩
        exact ⟨rfl, t, rfl⟩

/-- Claim C8: `matches(expected, node_version, spec_name)` is true iff
`node_version` starts with `expected.version` and `spec_name` equals
`expected.spec_name` exactly; in particular the baseline
`{version: "1.6", spec_name: "avail"}` accepts `("1.6.3", "avail")`,
rejects `("1.7.0", "avail")`, and rejects `("1.6.3", "other")`. -/
theorem ExpectedVersion_matches_spec (e : ExpectedVersion) (v s : List Char) :
    (e.matches v s = true ↔ (∃ t, e.version ++ t = v) ∧ s = e.spec_name) ∧
    expected16.matches ['1', '.', '6', '.', '3'] ['a', 'v', 'a', 'i', 'l'] = true ∧
    expected16.matches ['1', '.', '7', '.', '0'] ['a', 'v', 'a', 'i', 'l'] = false ∧
    expected16.matches ['1', '.', '6', '.', '3'] ['o', 't', 'h', 'e', 'r'] = false := by
  refine ⟨?_, by decide, by decide, by decide⟩
  unfold ExpectedVersion.matches
  rw [Bool.and_eq_true, beq_iff_eq, isPrefixOf_eq_true_iff]
  exact ⟨fun ⟨h1, h2⟩ => ⟨h1, h2.symm⟩, fun ⟨h1, h2⟩ => ⟨h1, h2.symm⟩⟩

/-- Claim C10: when `expected.version` is the empty string, `matches` accepts
every node version whose spec name equals `expected.spec_name`: the spec's
"non-empty prefix string" precondition is not enforced by the code. -/
theorem ExpectedVersion_matches_empty_version (e : ExpectedVersion)
    (v s : List Char) (hv : e.version = []) (hs : s = e.spec_name) :
    e.matches v s = true := by
  unfold ExpectedVersion.matches
  rw [hv, hs]
  simp [List.isPrefixOf]

/-- Witness for C10: the empty baseline version with spec name "avail"
accepts node version "9.9". -/
theorem ExpectedVersion_matches_empty_version_witness :
    (ExpectedVersion.mk [] ['a', 'v', 'a', 'i', 'l']).matches
      ['9', '.', '9'] ['a', 'v', 'a', 'i', 'l'] = true :=
  ExpectedVersion_matches_empty_version _ _ _ rfl rfl

/-- A concrete node used by witnesses. -/
def node0 : Node := ⟨['a'], [], 0, 0⟩

/-- A second concrete node used by witnesses. -/
def node1 : Node := ⟨['b'], [], 0, 0⟩

/-- Evaluation of `get_current` with an in-bounds cursor: the node at the
cursor is cloned and returned. -/
theorem get_current_eq_of_lt (n : Nodes)
    (h : n.current_index < n.list.length) :
    n.get_current = some (some (n.list.get ⟨n.current_index, h⟩)) :=
  dif_pos h

/-- Evaluation of `get_current` with an out-of-bounds cursor: the slice
indexing panics. -/
theorem get_current_eq_of_ge (n : Nodes)
    (h : ¬ n.current_index < n.list.length) :
    n.get_current = none :=
  dif_neg h

/-- Counterexample to claim C2 as stated: on the empty pool `get_current`
panics on the slice indexing (the outer `none`) — it does not return the
documented `None` (`some none` in this model). -/
theorem Nodes_get_current_empty_panics :
    Nodes.get_current ⟨[], 0⟩ = none ∧
    Nodes.get_current ⟨[], 0⟩ ≠ some none := by
  decide

/-- Claim C2 (amended): `get_current` returns a copy of the node at the
cursor whenever the cursor is in bounds; on an empty pool (cursor
necessarily out of bounds) the indexing panics instead of returning the
absent value. -/
theorem Nodes_get_current_amended (n : Nodes) :
    (∀ h : n.current_index < n.list.length,
      n.get_current = some (some (n.list.get ⟨n.current_index, h⟩))) ∧
    (n.list = [] → n.get_current = none) := by
  refine ⟨fun h => get_current_eq_of_lt n h, fun h => ?_⟩
  exact get_current_eq_of_ge n (by simp [h])

/-- Witness for C2 (amended): a one-node pool with cursor 0 returns its
node. -/
theorem Nodes_get_current_amended_witness :
    Nodes.get_current ⟨[node0], 0⟩ = some (some node0) :=
  (Nodes_get_current_amended ⟨[node0], 0⟩).1 (by decide)

/-- Evaluation of `next` off the last index: the cursor is incremented
(wrapping as `usize`) and `get_current` is consulted. -/
theorem next_eq_of_ne (n : Nodes)
    (h : ¬ n.current_index = (n.list.length + (USIZE - 1)) % USIZE) :
    Nodes.next n =
      (Nodes.get_current { n with current_index := (n.current_index + 1) % USIZE },
       { n with current_index := (n.current_index + 1) % USIZE }) := by
  unfold Nodes.next
  rw [if_neg h]

/-- Evaluation of `next` at the last index: the pool is reported exhausted
and the state is unchanged. -/
theorem next_eq_of_eq (n : Nodes)
    (h : n.current_index = (n.list.length + (USIZE - 1)) % USIZE) :
    Nodes.next n = (some none, n) := by
  unfold Nodes.next
  rw [if_pos h]

/-- On a non-empty list, `self.list.len() - 1` does not wrap: the wrapping
`usize` subtraction agrees with the truncated `Nat` subtraction. -/
theorem len_sub_one_mod (len : Nat) (h1 : 0 < len) (h2 : len < USIZE) :
    (len + (USIZE - 1)) % USIZE = len - 1 := by
  unfold USIZE at h2 ⊢
  omega

/-- Claim C5: on a non-empty pool with an in-bounds cursor, `next` returns
the absent value and leaves the state unchanged when the cursor is at the
last index — and keeps doing so on every further call — and otherwise
advances the cursor by exactly one and returns the node now at the cursor. -/
theorem Nodes_next_spec (n : Nodes) (hne : n.list ≠ [])
    (hinv : n.current_index < n.list.length) (hlen : n.list.length < USIZE) :
    (n.current_index = n.list.length - 1 →
      Nodes.next n = (some none, n) ∧
      ∀ k, Nodes.nextSteps k n = (some none, n)) ∧
    (n.current_index ≠ n.list.length - 1 →
      ∃ h : n.current_index + 1 < n.list.length,
        Nodes.next n =
          (some (some (n.list.get ⟨n.current_index + 1, h⟩)),
           { n with current_index := n.current_index + 1 })) := by
  have hpos : 0 < n.list.length := List.length_pos.2 hne
  have hkey : (n.list.length + (USIZE - 1)) % USIZE = n.list.length - 1 :=
    len_sub_one_mod n.list.length hpos hlen
  constructor
  · intro hc
    have hstep : Nodes.next n = (some none, n) :=
      next_eq_of_eq n (by rw [hkey]; exact hc)
    refine ⟨hstep, fun k => ?_⟩
    induction k with
    | zero => exact hstep
    | succ k ih =>
      show Nodes.nextSteps k (Nodes.next n).2 = (some none, n)
      rw [hstep]
      exact ih
  · intro hc
    have hlt : n.current_index + 1 < n.list.length := by omega
    refine ⟨hlt, ?_⟩
    have hmod : (n.current_index + 1) % USIZE = n.current_index + 1 :=
      Nat.mod_eq_of_lt (by omega)
    rw [next_eq_of_ne n (by rw [hkey]; exact hc)]
    have hcur :
        Nodes.get_current { n with current_index := (n.current_index + 1) % USIZE } =
          some (some (n.list.get ⟨n.current_index + 1, hlt⟩)) := by
      rw [get_current_eq_of_lt _ (by simpa [hmod] using hlt)]
      simp [hmod]
    rw [hcur, hmod]

/-- Witness for C5: a one-node pool with the cursor at the last index (0)
reports exhaustion, unchanged, on every call. -/
theorem Nodes_next_spec_witness :
    Nodes.next ⟨[node0], 0⟩ = (some none, ⟨[node0], 0⟩) ∧
    ∀ k, Nodes.nextSteps k ⟨[node0], 0⟩ = (some none, ⟨[node0], 0⟩) :=
  (Nodes_next_spec ⟨[node0], 0⟩ (by decide) (by decide) (by decide)).1 rfl

/-- Claim C9: on a pool with an empty candidate list (cursor 0, as `init`
produces), `next` compares the cursor against the wrapped `usize` value
`0 - 1`, takes the advance branch, and panics inside `get_current` — the
documented absent result (`some none`) is not returned. -/
theorem Nodes_next_empty_panics (n : Nodes) (hl : n.list = [])
    (hi : n.current_index = 0) :
    Nodes.next n = (none, ⟨[], 1⟩) ∧ (Nodes.next n).1 ≠ some none := by
  obtain ⟨l, i⟩ := n
  cases hl
  cases hi
  decide

/-- Witness for C9: the concrete empty pool. -/
theorem Nodes_next_empty_panics_witness :
    Nodes.next ⟨[], 0⟩ = (none, ⟨[], 1⟩) ∧
    (Nodes.next ⟨[], 0⟩).1 ≠ some none :=
  Nodes_next_empty_panics ⟨[], 0⟩ rfl rfl

/-- Counterexample to claim C7 as stated: resetting the empty pool (with the
only possible shuffle output, the empty list) panics in `get_current` (the
outer `none`) instead of returning the absent value. -/
theorem Nodes_reset_empty_panics :
    List.Perm ([] : List Node) [] ∧
    (Nodes.reset ⟨[], 0⟩ []).1 = none ∧
    (Nodes.reset ⟨[], 0⟩ []).1 ≠ some none := by
  decide

/-- Claim C7 (amended): on a non-empty pool, `reset` leaves the candidate
list a permutation of the previous one (hence the same multiset of hosts),
sets the cursor to 0, and returns the node now at index 0; on an empty pool
it panics in `get_current` instead of returning the absent value. -/
theorem Nodes_reset_amended (n : Nodes) (shuffled : List Node)
    (hperm : List.Perm shuffled n.list) (hne : n.list ≠ []) :
    List.Perm (Nodes.reset n shuffled).2.list n.list ∧
    List.Perm (List.map Node.host (Nodes.reset n shuffled).2.list)
      (List.map Node.host n.list) ∧
    (Nodes.reset n shuffled).2.current_index = 0 ∧
    ∃ h : 0 < (Nodes.reset n shuffled).2.list.length,
      (Nodes.reset n shuffled).1 =
        some (some ((Nodes.reset n shuffled).2.list.get ⟨0, h⟩)) := by
  have hlen : shuffled.length = n.list.length := hperm.length_eq
  have hpos : 0 < shuffled.length := by
    rw [hlen]
    exact List.length_pos.2 hne
  refine ⟨hperm, hperm.map Node.host, rfl, hpos, ?_⟩
  exact get_current_eq_of_lt ⟨shuffled, 0⟩ hpos

/-- Witness for C7 (amended): resetting a two-node pool with the swapped
shuffle output. -/
theorem Nodes_reset_amended_witness :
    List.Perm (Nodes.reset ⟨[node0, node1], 1⟩ [node1, node0]).2.list
      [node0, node1] ∧
    List.Perm
      (List.map Node.host (Nodes.reset ⟨[node0, node1], 1⟩ [node1, node0]).2.list)
      (List.map Node.host [node0, node1]) ∧
    (Nodes.reset ⟨[node0, node1], 1⟩ [node1, node0]).2.current_index = 0 ∧
    ∃ h : 0 < (Nodes.reset ⟨[node0, node1], 1⟩ [node1, node0]).2.list.length,
      (Nodes.reset ⟨[node0, node1], 1⟩ [node1, node0]).1 =
        some (some ((Nodes.reset ⟨[node0, node1], 1⟩
          [node1, node0]).2.list.get ⟨0, h⟩)) :=
  Nodes_reset_amended ⟨[node0, node1], 1⟩ [node1, node0] (by decide) (by decide)

/-- Invariant of the sampling loop: when the guard's truncated target `c16`
is a genuine `u16` value and the accumulator has not overshot it, a
terminating run returns a set of exactly `c16` distinct positions.  (The
loop guard compares `acc.card % 2^16` with `c16`, and the cardinality grows
by at most one per iteration, so the first exit happens exactly at `c16`.) -/
theorem genLoop_card (draws : Nat → Position) (c16 : Nat) (hc : c16 < U16) :
    ∀ (fuel i : Nat) (acc s : Finset Position), acc.card ≤ c16 →
      genLoop draws c16 fuel i acc = some s → s.card = c16 := by
  intro fuel
  induction fuel with
  | zero =>
    intro i acc s _ hrun
    simp [genLoop] at hrun
  | succ f ih =>
    intro i acc s hle hrun
    simp only [genLoop] at hrun
    by_cases hcond : acc.card % U16 < c16
    · rw [if_pos hcond] at hrun
      refine ih (i + 1) (insert (draws i) acc) s ?_ hrun
      have hmod : acc.card % U16 = acc.card :=
        Nat.mod_eq_of_lt (lt_of_le_of_lt hle hc)
      have hins := Finset.card_insert_le (draws i) acc
      rw [hmod] at hcond
      omega
    · rw [if_neg hcond] at hrun
      obtain rfl : acc = s := Option.some.inj hrun
      have hmod : acc.card % U16 = acc.card :=
        Nat.mod_eq_of_lt (lt_of_le_of_lt hle hc)
      rw [hmod] at hcond
      omega

/-- Invariant of the sampling loop: every position of a terminating run's
result comes from the accumulator or from the draw stream. -/
theorem genLoop_mem (draws : Nat → Position) (c16 R C : Nat)
    (hdraws : ∀ n, (draws n).row < R ∧ (draws n).col < C) :
    ∀ (fuel i : Nat) (acc s : Finset Position),
      (∀ p ∈ acc, p.row < R ∧ p.col < C) →
      genLoop draws c16 fuel i acc = some s →
      ∀ p ∈ s, p.row < R ∧ p.col < C := by
  intro fuel
  induction fuel with
  | zero =>
    intro i acc s _ hrun
    simp [genLoop] at hrun
  | succ f ih =>
    intro i acc s hacc hrun
    simp only [genLoop] at hrun
    by_cases hcond : acc.card % U16 < c16
    · rw [if_pos hcond] at hrun
      refine ih (i + 1) (insert (draws i) acc) s ?_ hrun
      intro p hp
      rcases Finset.mem_insert.1 hp with h | h
      · exact h ▸ hdraws i
      · exact hacc p h
    · rw [if_neg hcond] at hrun
      obtain rfl : acc = s := Option.some.inj hrun
      exact hacc

/-- Claim C1 (amended): for every `k ≤ extended_size` and every admissible
draw stream, whenever the sampling loop terminates it returns a set of
exactly `k mod 2^16` distinct positions — exactly `k` whenever `k < 2^16` —
each with `row < extended_rows` and `col < cols`.  (The guard
`(indices.len() as u16) < count as u16` truncates both counts to 16 bits,
so a request of, e.g., `2^16` cells exits immediately.) -/
theorem generate_random_cells_le (d : Dimensions) (k : Nat)
    (draws : Nat → Position) (fuel : Nat) (s : Finset Position)
    (hk : k ≤ d.extended_size)
    (hdraws : ∀ n, (draws n).row < d.extended_rows ∧ (draws n).col < d.cols)
    (hrun : generate_random_cells d k draws fuel = some s) :
    s.card = k % U16 ∧
    ∀ p ∈ s, p.row < d.extended_rows ∧ p.col < d.cols := by
  simp only [generate_random_cells] at hrun
  rw [if_neg (not_lt.2 hk)] at hrun
  constructor
  · exact genLoop_card draws (k % U16) (Nat.mod_lt k (by decide)) fuel 0 ∅ s
      (by simp) hrun
  · exact genLoop_mem draws (k % U16) d.extended_rows d.cols hdraws fuel 0 ∅ s
      (by simp) hrun

/-- The draw stream used by the witness for C1: alternates between the two
diagonal positions of a 2-column coded matrix. -/
def wDraws : Nat → Position := fun n => ⟨n % 2, n % 2⟩

/-- The witness draw stream only produces in-range positions for the 1×2
matrix. -/
theorem wDraws_valid (n : Nat) :
    (wDraws n).row < (Dimensions.mk 1 2).extended_rows ∧
    (wDraws n).col < (Dimensions.mk 1 2).cols :=
  ⟨Nat.mod_lt n (by decide), Nat.mod_lt n (by decide)⟩

/-- Witness for C1 (amended): a 1×2 matrix (extended 2×2, 4 cells), `k = 2`,
and a stream producing `(0,0), (1,1), …` terminate with exactly 2 distinct
positions. -/
theorem generate_random_cells_le_witness :
    Option.map Finset.card (generate_random_cells ⟨1, 2⟩ 2 wDraws 3) =
      some (2 % U16) := by
  have hs : (generate_random_cells ⟨1, 2⟩ 2 wDraws 3).isSome = true := by decide
  obtain ⟨s, hrun⟩ := Option.isSome_iff_exists.1 hs
  rw [hrun]
  exact congrArg some
    (generate_random_cells_le ⟨1, 2⟩ 2 wDraws 3 s (by decide) wDraws_valid hrun).1

/-- Dimensions whose extended size is exactly `2^16`: a 256×128 base matrix,
extended to 512 rows. -/
def bigD : Dimensions := ⟨256, 128⟩

/-- The constant draw stream used by the counterexamples; its draws are
in range for `bigD`. -/
def constDraws : Nat → Position := fun _ => ⟨0, 0⟩

/-- The constant stream only produces in-range positions for `bigD`. -/
theorem constDraws_valid (n : Nat) :
    (constDraws n).row < bigD.extended_rows ∧
    (constDraws n).col < bigD.cols := by
  show 0 < bigD.extended_rows ∧ 0 < bigD.cols
  decide

/-- Counterexample to claim C1 as stated: for the 256×128 matrix
(`extended_size = 65536`) and the request `k = 65536 ≤ extended_size`, the
loop guard truncates `count` to `0` as `u16` and the function returns the
empty set — not `65536` distinct positions — whatever the draws. -/
theorem generate_random_cells_le_cex :
    65536 ≤ bigD.extended_size ∧
    (∀ n, (constDraws n).row < bigD.extended_rows ∧
      (constDraws n).col < bigD.cols) ∧
    generate_random_cells bigD 65536 constDraws 1 = some ∅ ∧
    (∅ : Finset Position).card ≠ 65536 :=
  ⟨by decide, constDraws_valid, by decide, by decide⟩

/-- Claim C6 (amended): for every `k > extended_size` and every admissible
draw stream, whenever the sampling loop terminates it returns a set of
exactly `extended_size mod 2^16` distinct positions — exactly
`extended_size` whenever `extended_size < 2^16` — each in range.  (The
effective target is capped at `extended_size`, but the loop guard then
truncates it to 16 bits.) -/
theorem generate_random_cells_gt (d : Dimensions) (k : Nat)
    (draws : Nat → Position) (fuel : Nat) (s : Finset Position)
    (hk : d.extended_size < k)
    (hdraws : ∀ n, (draws n).row < d.extended_rows ∧ (draws n).col < d.cols)
    (hrun : generate_random_cells d k draws fuel = some s) :
    s.card = d.extended_size % U16 ∧
    ∀ p ∈ s, p.row < d.extended_rows ∧ p.col < d.cols := by
  simp only [generate_random_cells] at hrun
  rw [if_pos hk] at hrun
  constructor
  · exact genLoop_card draws (d.extended_size % U16)
      (Nat.mod_lt _ (by decide)) fuel 0 ∅ s (by simp) hrun
  · exact genLoop_mem draws (d.extended_size % U16) d.extended_rows d.cols
      hdraws fuel 0 ∅ s (by simp) hrun

/-- The draw stream used by the witness for C6: enumerates all four cells of
the extended 2×2 matrix. -/
def wDraws6 : Nat → Position := fun n => ⟨n / 2 % 2, n % 2⟩

/-- The enumerating stream only produces in-range positions for the 1×2
matrix. -/
theorem wDraws6_valid (n : Nat) :
    (wDraws6 n).row < (Dimensions.mk 1 2).extended_rows ∧
    (wDraws6 n).col < (Dimensions.mk 1 2).cols :=
  ⟨Nat.mod_lt _ (by decide), Nat.mod_lt _ (by decide)⟩

/-- Witness for C6 (amended): a 1×2 matrix (4 extended cells), an
over-request of `k = 5`, and a stream enumerating all cells terminate with
exactly the 4 distinct positions. -/
theorem generate_random_cells_gt_witness :
    Option.map Finset.card (generate_random_cells ⟨1, 2⟩ 5 wDraws6 5) =
      some ((Dimensions.mk 1 2).extended_size % U16) := by
  have hs : (generate_random_cells ⟨1, 2⟩ 5 wDraws6 5).isSome = true := by decide
  obtain ⟨s, hrun⟩ := Option.isSome_iff_exists.1 hs
  rw [hrun]
  exact congrArg some
    (generate_random_cells_gt ⟨1, 2⟩ 5 wDraws6 5 s (by decide) wDraws6_valid hrun).1

/-- Counterexample to claim C6 as stated: for the 256×128 matrix
(`extended_size = 65536`) and the over-request `k = 65537`, the capped
target `65536` truncates to `0` as `u16` and the function returns the empty
set — not `extended_size` distinct positions. -/
theorem generate_random_cells_gt_cex :
    bigD.extended_size < 65537 ∧
    (∀ n, (constDraws n).row < bigD.extended_rows ∧
      (constDraws n).col < bigD.cols) ∧
    generate_random_cells bigD 65537 constDraws 1 = some ∅ ∧
    (∅ : Finset Position).card ≠ bigD.extended_size :=
  ⟨by decide, constDraws_valid, by decide, by decide⟩

/-- The fallback computation at confidence 99:
`⌈-log₂ (1 - 99/100)⌉ = ⌈log₂ 100⌉ = 7`. -/
theorem cellCountRaw_99 : cellCountRaw 99 = 7 := by
  unfold cellCountRaw
  have harg : ((1 : ℚ) - 99 / 100)⁻¹ = ((100 : ℕ) : ℚ) := by norm_num
  rw [harg, Int.clog_natCast]
  have h1 : Nat.clog 2 100 ≤ 7 :=
    (Nat.le_pow_iff_clog_le (by norm_num)).1 (by norm_num)
  have h2 : 6 < Nat.clog 2 100 :=
    (Nat.pow_lt_iff_lt_clog (by norm_num)).1 (by norm_num)
  omega

/-- Claim C3: any confidence outside `[50, 100)` is replaced by the fallback
`99`, so the result equals `cell_count_for_confidence 99`, which is `7`. -/
theorem cell_count_for_confidence_invalid (c : ℚ)
    (h : ¬ (50 ≤ c ∧ c < 100)) :
    cell_count_for_confidence c = cell_count_for_confidence 99 ∧
    cell_count_for_confidence 99 = 7 := by
  have h99in : (50 : ℚ) ≤ 99 ∧ (99 : ℚ) < 100 := by norm_num
  have h99 : cell_count_for_confidence 99 = 7 := by
    simp only [cell_count_for_confidence, if_neg (not_not_intro h99in),
      cellCountRaw_99]
    norm_num
  refine ⟨?_, h99⟩
  rw [h99]
  simp only [cell_count_for_confidence, if_pos h, cellCountRaw_99]
  norm_num

/-- Witness for C3: confidence `0` (below the valid range) yields the
fallback count `7`. -/
theorem cell_count_for_confidence_invalid_witness :
    cell_count_for_confidence 0 = cell_count_for_confidence 99 ∧
    cell_count_for_confidence 99 = 7 :=
  cell_count_for_confidence_invalid 0 (by norm_num)

/-- Claim C4: for confidence in `[50, 100)` the result is an integer in
`[1, 10]` — the computed count is kept when it already lies there, and is
otherwise replaced by the fallback count `7`. -/
theorem cell_count_for_confidence_in_range (c : ℚ)
    (h : 50 ≤ c ∧ c < 100) :
    1 ≤ cell_count_for_confidence c ∧ cell_count_for_confidence c ≤ 10 := by
  simp only [cell_count_for_confidence, if_neg (not_not_intro h)]
  by_cases h0 : cellCountRaw c = 0 ∨ cellCountRaw c > 10
  · rw [if_pos h0, cellCountRaw_99]
    norm_num
  · rw [if_neg h0]
    push_neg at h0
    omega

/-- Witness for C4: confidence `99` yields a count in `[1, 10]`. -/
theorem cell_count_for_confidence_in_range_witness :
    1 ≤ cell_count_for_confidence 99 ∧ cell_count_for_confidence 99 ≤ 10 :=
  cell_count_for_confidence_in_range 99 (by norm_num)
